import Mathlib

/-!
Verification of the delimiter-scanning and substitution engine of
mdbook-katex (src/main.rs), shallowly embedded over lists of characters.
Rust strings are modelled as `List Char`; the external katex render call
is an abstract function `Opts → List Char → Option (List Char)` where
`none` models a render error.
-/

namespace MdbookKatex

/-- Render options built per expression in `render_separator`
(Rust `katex::Opts`: display mode plus the macro table; the output type
is fixed to Html in the source and carries no information). -/
structure Opts where
  display_mode : Bool
  macros : List (List Char × List Char)
deriving DecidableEq

/-- The macro table (Rust `HashMap<String, String>`), modelled as an
association list with at most one entry per key. -/
abbrev MacroMap := List (List Char × List Char)

/-- One step of Rust `str::split`: `skip` counts delimiter characters that
were matched by a previous step and remain to be consumed.  At `skip = 0`,
a match of `sep` at the current position ends the current part and starts
skipping the matched characters; otherwise the current character is kept. -/
def splitGo (sep : List Char) : Nat → List Char → List (List Char)
  | _, [] => [[]]
  | skip + 1, _ :: rest => splitGo sep skip rest
  | 0, c :: rest =>
    if sep.isPrefixOf (c :: rest) then
      [] :: splitGo sep (sep.length - 1) rest
    else
      match splitGo sep 0 rest with
      | [] => [[c]]
      | h :: t => (c :: h) :: t

/-- Rust `string.split(separator)` for a non-empty separator: the parts
between the leftmost non-overlapping occurrences of `sep`. -/
def splitOnL (sep s : List Char) : List (List Char) :=
  splitGo sep 0 s

/-- Number of (non-overlapping, leftmost) occurrences of `sep`, counted by
the same scan as `splitGo`. -/
def countOccGo (sep : List Char) : Nat → List Char → Nat
  | _, [] => 0
  | skip + 1, _ :: rest => countOccGo sep skip rest
  | 0, c :: rest =>
    if sep.isPrefixOf (c :: rest) then
      countOccGo sep (sep.length - 1) rest + 1
    else
      countOccGo sep 0 rest

/-- Number of occurrences of `sep` in `s`, as consumed by `splitOnL`. -/
def countOcc (sep s : List Char) : Nat :=
  countOccGo sep 0 s

/-- Rust `str::contains`: does `pat` occur as a contiguous substring? -/
def containsSub (pat : List Char) : List Char → Bool
  | [] => pat.isEmpty
  | c :: rest => pat.isPrefixOf (c :: rest) || containsSub pat rest

/-- A segment of the split, in the vocabulary of the specification:
the source classifies the parts of `string.split(separator)` by the parity
of the loop counter `k` (`k % 2 == 1` is an expression). -/
inductive Segment where
  | Literal (text : List Char) : Segment
  | Expression (raw_text : List Char) : Segment
deriving DecidableEq

/-- Tag the split parts alternately, starting at counter `k`, exactly as
the loop in `KatexProcessor::render_separator` classifies them. -/
def tagAlternate (k : Nat) : List (List Char) → List Segment
  | [] => []
  | x :: xs =>
    (if k % 2 == 1 then Segment.Expression x else Segment.Literal x) ::
      tagAlternate (k + 1) xs

/-- The segmentation a single pass of `render_separator` induces on its
input: split on `sep`, even-indexed parts literal, odd-indexed expressions. -/
def splitSegments (sep s : List Char) : List Segment :=
  tagAlternate 0 (splitOnL sep s)

/-- The body of the loop of `KatexProcessor::render_separator`: each part
is emitted verbatim when `k` is even; when `k` is odd the external render
function is applied (with options built from `display` and `macros`) and
on error (`none`, Rust `Err`) the raw part is emitted instead. -/
def renderItems (rWO : Opts → List Char → Option (List Char))
    (display : Bool) (macros : MacroMap) (k : Nat) :
    List (List Char) → List Char
  | [] => []
  | item :: rest =>
    (if k % 2 == 1 then
      match rWO (Opts.mk display macros) item with
      | some rendered => rendered
      | none => item
    else item) ++ renderItems rWO display macros (k + 1) rest

/-- `KatexProcessor::render_separator`, parameterised by the external
render function `rWO` (Rust `katex::render_with_opts`). -/
def render_separator (rWO : Opts → List Char → Option (List Char))
    (string : List Char) (separator : List Char) (display : Bool)
    (macros : MacroMap) : List Char :=
  renderItems rWO display macros 0 (splitOnL separator string)

/-- The fixed stylesheet header of `KatexProcessor::render`. -/
def header : String :=
  "<link rel=\"stylesheet\" href=\"https://cdn.jsdelivr.net/npm/katex@0.12.0/dist/katex.min.css\" integrity=\"sha384-AfEj0r4/OFrOo5t7NnNe46zW/tFgW6x/bCJG8FqQCEo3+Aro6EYUG4+cU+KJWu/X\" crossorigin=\"anonymous\">"

/-- `KatexProcessor::render`: the header, a blank line, then the block
pass on the whole content followed by the inline pass on the block pass
result (`self.render_separator(content, "$$", true, ..)` then
`self.render_separator(&content, "$", false, ..)`). -/
def render (rWO : Opts → List Char → Option (List Char))
    (content : List Char) (macros : MacroMap) : List Char :=
  header.toList ++ "\n\n".toList ++
    render_separator rWO
      (render_separator rWO content "$$".toList true macros)
      "$".toList false macros

/-- A render function that always fails (Rust `Err` on every call). -/
def alwaysFail : Opts → List Char → Option (List Char) :=
  fun _ _ => none

/-- The raw texts of the expression segments of a split, i.e. the inputs
the pass hands to the external render function. -/
def expressionsOf (sep s : List Char) : List (List Char) :=
  (splitSegments sep s).filterMap fun seg =>
    match seg with
    | Segment.Expression t => some t
    | Segment.Literal _ => none

/-- The renderer as the specification describes it (second definition for
the refinement comparison, following the words of the spec, not the
source): the inline pass is applied only to the Literal segments of the
block pass, while block Expression segments are rendered (with fallback)
and shielded from the inline pass.  This is the helper loop, with `k` the
block-pass counter. -/
def renderSpecGo (rWO : Opts → List Char → Option (List Char))
    (macros : MacroMap) (k : Nat) : List (List Char) → List Char
  | [] => []
  | item :: rest =>
    (if k % 2 == 1 then
      match rWO (Opts.mk true macros) item with
      | some rendered => rendered
      | none => item
    else render_separator rWO item "$".toList false macros) ++
      renderSpecGo rWO macros (k + 1) rest

/-- The spec-described two-level renderer (see `renderSpecGo`): block
expressions are opaque to the inline pass. -/
def render_spec_twolevel (rWO : Opts → List Char → Option (List Char))
    (content : List Char) (macros : MacroMap) : List Char :=
  header.toList ++ "\n\n".toList ++
    renderSpecGo rWO macros 0 (splitOnL "$$".toList content)

/-- `HashMap::insert`: replace the entry for the key if present,
otherwise add it. -/
def insertMacro (map : MacroMap) (k v : List Char) : MacroMap :=
  match map with
  | [] => [(k, v)]
  | (k0, v0) :: rest =>
    if k0 = k then (k, v) :: rest else (k0, v0) :: insertMacro rest k v

/-- Association-list lookup, the observable behaviour of the macro table. -/
def lookupMacro (map : MacroMap) (k : List Char) : Option (List Char) :=
  match map with
  | [] => none
  | (k0, v0) :: rest => if k0 = k then some v0 else lookupMacro rest k

/-- One line of `KatexProcessor::load_macros`: if the line is non-empty
and starts with a backslash it is split on `":"` and `couple[0]`,
`couple[1]` are inserted; the index `couple[1]` panics (modelled `none`)
when the line contains no colon.  Other lines are ignored. -/
def processMacroLine (map : MacroMap) (couple : List Char) :
    Option MacroMap :=
  match couple.head? with
  | some c =>
    if c = '\\' then
      match splitOnL ":".toList couple with
      | k :: v :: _ => some (insertMacro map k v)
      | _ => none
    else some map
  | none => some map

/-- `KatexProcessor::load_macros` applied to the text of the macro file:
fold `processMacroLine` over the lines (`macro_str.split("\n")`);
`none` models the panic aborting the run. -/
def load_macros (macro_str : List Char) : Option MacroMap :=
  (splitOnL "\n".toList macro_str).foldlM processMacroLine []

/-- An item of the book tree (mdbook `BookItem`): a chapter (name,
content, section number, path, parent names, nested sub-items) or a
separator. -/
inductive BookItem where
  | chapterItem (name : List Char) (content : List Char)
      (number : Option (List Nat)) (path : Option (List Char))
      (parent_names : List (List Char)) (sub_items : List BookItem) :
      BookItem
  | separator : BookItem

mutual

/-- `Book::for_each_mut` applied to the closure of
`KatexProcessor::run`: replace each chapter content by `f` of it,
recursing into sub-items; other items untouched. -/
def processItem (f : List Char → List Char) : BookItem → BookItem
  | BookItem.chapterItem name content number path parents subs =>
      BookItem.chapterItem name (f content) number path parents
        (processItems f subs)
  | BookItem.separator => BookItem.separator

/-- `processItem` mapped over a list of items, preserving order. -/
def processItems (f : List Char → List Char) :
    List BookItem → List BookItem
  | [] => []
  | i :: rest => processItem f i :: processItems f rest

end

/-- `KatexProcessor::run` on the sections of a book: every chapter
content is replaced by the processed content, everything else is cloned
unchanged. The content transformation (`KatexProcessor::process`) is the
parameter `f`. -/
def run (f : List Char → List Char) (book : List BookItem) :
    List BookItem :=
  processItems f book

mutual

/-- Blank out every chapter content, keeping every other field: the
projection of a book item onto its non-content data. -/
def eraseItem : BookItem → BookItem
  | BookItem.chapterItem name _ number path parents subs =>
      BookItem.chapterItem name [] number path parents (eraseItems subs)
  | BookItem.separator => BookItem.separator

/-- `eraseItem` over a list of items. -/
def eraseItems : List BookItem → List BookItem
  | [] => []
  | i :: rest => eraseItem i :: eraseItems rest

end

mutual

/-- The chapter contents of an item, in traversal order. -/
def contentsItem : BookItem → List (List Char)
  | BookItem.chapterItem _ content _ _ _ subs =>
      content :: contentsItems subs
  | BookItem.separator => []

/-- The chapter contents of a list of items, in traversal order. -/
def contentsItems : List BookItem → List (List Char)
  | [] => []
  | i :: rest => contentsItem i ++ contentsItems rest

end

theorem splitGo_exists_cons (sep : List Char) :
    ∀ (s : List Char) (skip : Nat), ∃ h t, splitGo sep skip s = h :: t := by
  intro s
  induction s with
  | nil => intro skip; exact ⟨[], [], by cases skip <;> rfl⟩
  | cons c rest ih =>
    intro skip
    cases skip with
    | succ n => simpa [splitGo] using ih n
    | zero =>
      by_cases hpre : sep.isPrefixOf (c :: rest) = true
      · exact ⟨[], splitGo sep (sep.length - 1) rest, by simp [splitGo, hpre]⟩
      · obtain ⟨h, t, ht⟩ := ih 0
        exact ⟨c :: h, t, by simp [splitGo, hpre, ht]⟩

theorem length_splitGo (sep : List Char) :
    ∀ (s : List Char) (skip : Nat),
      (splitGo sep skip s).length = countOccGo sep skip s + 1 := by
  intro s
  induction s with
  | nil => intro skip; cases skip <;> rfl
  | cons c rest ih =>
    intro skip
    cases skip with
    | succ n => simpa [splitGo, countOccGo] using ih n
    | zero =>
      by_cases hpre : sep.isPrefixOf (c :: rest) = true
      · simp [splitGo, countOccGo, hpre, ih]
      · obtain ⟨h, t, ht⟩ := splitGo_exists_cons sep rest 0
        have := ih 0
        rw [ht] at this
        simp [splitGo, countOccGo, hpre, ht]
        simpa using this

theorem containsSub_eq_false_of_head (c : Char) (sep' : List Char) :
    ∀ (s : List Char), c ∉ s → containsSub (c :: sep') s = false := by
  intro s
  induction s with
  | nil => intro _; rfl
  | cons a rest ih =>
    intro hmem
    have hne : ¬ (c = a) := fun h => hmem (h ▸ List.mem_cons_self a rest)
    have hrest : c ∉ rest := fun h => hmem (List.mem_cons_of_mem a h)
    simp [containsSub, List.isPrefixOf, ih hrest]
    intro h
    exact absurd (by simpa using h) hne

theorem splitGo_eq_of_not_contains (sep : List Char) :
    ∀ (s : List Char), containsSub sep s = false → splitGo sep 0 s = [s] := by
  intro s
  induction s with
  | nil => intro _; rfl
  | cons c rest ih =>
    intro hns
    have hpre : sep.isPrefixOf (c :: rest) = false := by
      simp [containsSub] at hns; exact hns.1
    have hrest : containsSub sep rest = false := by
      simp [containsSub] at hns; exact hns.2
    simp [splitGo, hpre, ih hrest]

theorem splitOnL_cons_single (c : Char) :
    ∀ (A t : List Char), c ∉ A →
      splitOnL [c] (A ++ c :: t) = A :: splitOnL [c] t := by
  intro A
  induction A with
  | nil =>
    intro t _
    have hpre : List.isPrefixOf [c] (c :: t) = true := by
      simp [List.isPrefixOf]
    simp [splitOnL, splitGo, hpre]
  | cons a A' ih =>
    intro t hmem
    have hne : ¬ (c = a) := fun h => hmem (h ▸ List.mem_cons_self a A')
    have hA' : c ∉ A' := fun h => hmem (List.mem_cons_of_mem a h)
    have hpre : List.isPrefixOf [c] (a :: (A' ++ c :: t)) = false := by
      simp [List.isPrefixOf]
      exact fun h => absurd (by simpa using h) hne
    have := ih t hA'
    simp only [splitOnL] at this ⊢
    simp [splitGo, hpre, List.cons_append, this]

theorem splitOnL_single_of_not_mem (c : Char) :
    ∀ (A : List Char), c ∉ A → splitOnL [c] A = [A] := by
  intro A hmem
  refine splitGo_eq_of_not_contains [c] A ?_
  exact containsSub_eq_false_of_head c [] A hmem

theorem splitOnL_three (c : Char) (A B C : List Char)
    (hA : c ∉ A) (hB : c ∉ B) (hC : c ∉ C) :
    splitOnL [c] (A ++ c :: (B ++ c :: C)) = [A, B, C] := by
  rw [splitOnL_cons_single c A (B ++ c :: C) hA,
    splitOnL_cons_single c B C hB,
    splitOnL_single_of_not_mem c C hC]

theorem tagAlternate_length : ∀ (parts : List (List Char)) (k : Nat),
    (tagAlternate k parts).length = parts.length := by
  intro parts
  induction parts with
  | nil => intro k; rfl
  | cons p ps ih => intro k; simp [tagAlternate, ih]

theorem tagAlternate_get? :
    ∀ (parts : List (List Char)) (k i : Nat) (x : List Char),
      parts.get? i = some x →
      (tagAlternate k parts).get? i =
        some (if (k + i) % 2 == 1 then Segment.Expression x
              else Segment.Literal x) := by
  intro parts
  induction parts with
  | nil => intro k i x h; simp at h
  | cons p ps ih =>
    intro k i x h
    cases i with
    | zero =>
      simp at h
      subst h
      simp [tagAlternate]
    | succ i' =>
      simp only [List.get?_cons_succ] at h
      have := ih (k + 1) i' x h
      have harith : k + 1 + i' = k + (i' + 1) := by omega
      rw [harith] at this
      simpa [tagAlternate] using this

theorem renderItems_alwaysFail (display : Bool) (macros : MacroMap) :
    ∀ (parts : List (List Char)) (k : Nat),
      renderItems alwaysFail display macros k parts = parts.flatten := by
  intro parts
  induction parts with
  | nil => intro k; rfl
  | cons p ps ih =>
    intro k
    simp [renderItems, alwaysFail, ih]

theorem renderItems_odd_cons (rWO : Opts → List Char → Option (List Char))
    (display : Bool) (macros : MacroMap) (k : Nat) (item : List Char)
    (rest : List (List Char)) (hk : k % 2 = 1) :
    renderItems rWO display macros k (item :: rest) =
      ((rWO (Opts.mk display macros) item).getD item) ++
        renderItems rWO display macros (k + 1) rest := by
  simp [renderItems, hk]
  cases rWO (Opts.mk display macros) item <;> rfl

theorem render_separator_of_not_contains
    (rWO : Opts → List Char → Option (List Char)) (s sep : List Char)
    (display : Bool) (macros : MacroMap)
    (h : containsSub sep s = false) :
    render_separator rWO s sep display macros = s := by
  unfold render_separator splitOnL
  rw [splitGo_eq_of_not_contains sep s h]
  simp [renderItems]

theorem isPrefixOf_two_dollars (c : Char) (rest : List Char)
    (h : List.isPrefixOf ['$', '$'] (c :: rest) = true) :
    c = '$' ∧ ∃ r₂, rest = '$' :: r₂ := by
  cases rest with
  | nil => simp [List.isPrefixOf] at h
  | cons r r₂ =>
    simp [List.isPrefixOf] at h
    obtain ⟨h1, h2⟩ := h
    exact ⟨h1.symm, r₂, by rw [h2]⟩

theorem flatten_splitOnL_dollar :
    ∀ (s : List Char),
      (splitOnL ['$'] s).flatten = s.filter (fun c => !(c == '$')) := by
  intro s
  induction s with
  | nil => rfl
  | cons c rest ih =>
    by_cases hc : c = '$'
    · subst hc
      have hpre : List.isPrefixOf ['$'] ('$' :: rest) = true := by
        simp [List.isPrefixOf]
      simp only [splitOnL, splitGo, hpre, if_true]
      simpa [List.filter] using ih
    · have hne : ('$' : Char) ≠ c := fun h => hc h.symm
      have hpre : List.isPrefixOf ['$'] (c :: rest) = false := by
        simp [List.isPrefixOf, hne]
      have hceq : (c == '$') = false := by
        simp [hc]
      obtain ⟨h, t, ht⟩ := splitGo_exists_cons ['$'] rest 0
      have ihr := ih
      simp only [splitOnL] at ihr ⊢
      rw [ht] at ihr
      simp only [List.flatten_cons] at ihr
      rw [show splitGo ['$'] 0 (c :: rest) = (c :: h) :: t by
        simp [splitGo, hpre, ht]]
      simp [List.filter_cons, hceq, ihr]

theorem filter_flatten_splitOnL_dd :
    ∀ (n : Nat) (s : List Char), s.length ≤ n →
      ((splitOnL ['$', '$'] s).flatten).filter (fun c => !(c == '$')) =
        s.filter (fun c => !(c == '$')) := by
  intro n
  induction n with
  | zero =>
    intro s hs
    have : s = [] := List.eq_nil_of_length_eq_zero (Nat.le_zero.mp hs)
    subst this
    rfl
  | succ n ih =>
    intro s hs
    cases s with
    | nil => rfl
    | cons c rest =>
      cases hpre : List.isPrefixOf ['$', '$'] (c :: rest) with
      | true =>
        obtain ⟨hc, r₂, hrest⟩ := isPrefixOf_two_dollars c rest hpre
        subst hc
        subst hrest
        have hlen : r₂.length ≤ n := by
          simp at hs
          omega
        have := ih r₂ hlen
        simp only [splitOnL] at this ⊢
        rw [show splitGo ['$', '$'] 0 ('$' :: '$' :: r₂) =
            [] :: splitGo ['$', '$'] 0 r₂ by
          simp [splitGo, hpre]]
        simpa [List.filter] using this
      | false =>
        obtain ⟨h, t, ht⟩ := splitGo_exists_cons ['$', '$'] rest 0
        have hlen : rest.length ≤ n := by
          simp at hs
          omega
        have ihr := ih rest hlen
        simp only [splitOnL] at ihr ⊢
        rw [ht] at ihr
        simp only [List.flatten_cons, List.filter_append] at ihr
        rw [show splitGo ['$', '$'] 0 (c :: rest) = (c :: h) :: t by
          simp [splitGo, hpre, ht]]
        simp only [List.flatten_cons, List.cons_append, List.filter_cons,
          List.filter_append]
        rw [ihr]

mutual

theorem eraseItem_processItem (f : List Char → List Char) :
    ∀ (b : BookItem), eraseItem (processItem f b) = eraseItem b
  | BookItem.chapterItem name content number path parents subs => by
      simp [processItem, eraseItem, eraseItems_processItems f subs]
  | BookItem.separator => rfl

theorem eraseItems_processItems (f : List Char → List Char) :
    ∀ (l : List BookItem), eraseItems (processItems f l) = eraseItems l
  | [] => rfl
  | i :: rest => by
      simp [processItems, eraseItems, eraseItem_processItem f i,
        eraseItems_processItems f rest]

end

mutual

theorem contentsItem_processItem (f : List Char → List Char) :
    ∀ (b : BookItem),
      contentsItem (processItem f b) = (contentsItem b).map f
  | BookItem.chapterItem name content number path parents subs => by
      simp [processItem, contentsItem, contentsItems_processItems f subs]
  | BookItem.separator => rfl

theorem contentsItems_processItems (f : List Char → List Char) :
    ∀ (l : List BookItem),
      contentsItems (processItems f l) = (contentsItems l).map f
  | [] => rfl
  | i :: rest => by
      simp [processItems, contentsItems, contentsItem_processItem f i,
        contentsItems_processItems f rest]

end

/-- C1 (counterexample): the claim that the inline pass runs only on the
Literal segments of the block pass is false for the code.  On the
document from the claim, with a render function that always fails, the
code output differs from the spec-described two-level renderer, and the
inline pass receives the text between the single dollars of the block
expression raw text as an expression of its own. -/
theorem inline_pass_splits_block_fallback :
    render alwaysFail "$$ a $ b $ c $$".toList [] ≠
      render_spec_twolevel alwaysFail "$$ a $ b $ c $$".toList [] ∧
    expressionsOf "$".toList
        (render_separator alwaysFail "$$ a $ b $ c $$".toList
          "$$".toList true []) = [" b ".toList]
    := by
  constructor
  · have e1 : render alwaysFail "$$ a $ b $ c $$".toList [] =
        header.toList ++ "\n\n".toList ++ " a  b  c ".toList := rfl
    have e2 : render_spec_twolevel alwaysFail "$$ a $ b $ c $$".toList [] =
        header.toList ++ "\n\n".toList ++ " a $ b $ c ".toList := rfl
    rw [e1, e2]
    intro h
    have h2 := List.append_cancel_left h
    exact absurd h2 (by decide)
  · rfl

/-- C1 (amended): the block pass on the claim document produces exactly
one block expression with raw text " a $ b $ c "; the inline pass then
runs over the whole output of the block pass, so the block raw text is
shielded from the inline pass only when its replacement contains no
dollar: with an always-failing renderer the fallback text is re-split on
the single dollar, while a renderer whose block output is dollar-free is
left intact. -/
theorem inline_pass_on_block_output :
    splitSegments "$$".toList "$$ a $ b $ c $$".toList =
      [Segment.Literal [], Segment.Expression " a $ b $ c ".toList,
        Segment.Literal []] ∧
    render alwaysFail "$$ a $ b $ c $$".toList [] =
      header.toList ++ "\n\n".toList ++ " a  b  c ".toList ∧
    render (fun o _ => if o.display_mode then some ['X'] else none)
        "$$ a $ b $ c $$".toList [] =
      header.toList ++ "\n\n".toList ++ ['X'] :=
  ⟨rfl, rfl, rfl⟩

/-- C2 (amended): each part of the split is classified by the parity of
its index, even parts Literal and odd parts Expression; and for a
single-character delimiter `c` absent from `A`, `B` and `C`, the
document `A ++ [c] ++ B ++ [c] ++ C` splits into Literal `A`,
Expression `B`, Literal `C`, so the pass emits `A` and `C` unchanged
and hands exactly `B` to the render function (with raw fallback). -/
theorem split_alternation_single_char :
    (∀ (sep s : List Char) (i : Nat) (x : List Char),
      (splitOnL sep s).get? i = some x →
      (splitSegments sep s).get? i =
        some (if i % 2 == 1 then Segment.Expression x
              else Segment.Literal x)) ∧
    (∀ (c : Char) (A B C : List Char), c ∉ A → c ∉ B → c ∉ C →
      splitSegments [c] (A ++ c :: (B ++ c :: C)) =
        [Segment.Literal A, Segment.Expression B, Segment.Literal C]) ∧
    (∀ (rWO : Opts → List Char → Option (List Char)) (display : Bool)
        (macros : MacroMap) (c : Char) (A B C : List Char),
      c ∉ A → c ∉ B → c ∉ C →
      render_separator rWO (A ++ c :: (B ++ c :: C)) [c] display macros =
        A ++ (((rWO (Opts.mk display macros) B).getD B) ++ C)) := by
  refine ⟨?_, ?_, ?_⟩
  · intro sep s i x h
    have := tagAlternate_get? (splitOnL sep s) 0 i x h
    simpa [splitSegments] using this
  · intro c A B C hA hB hC
    rw [splitSegments, splitOnL_three c A B C hA hB hC]
    rfl
  · intro rWO display macros c A B C hA hB hC
    show renderItems rWO display macros 0
        (splitOnL [c] (A ++ c :: (B ++ c :: C))) = _
    rw [splitOnL_three c A B C hA hB hC]
    simp [renderItems]
    cases rWO (Opts.mk display macros) B <;> rfl

/-- C2 (witness): the single-character case at a concrete input. -/
theorem split_alternation_single_char_witness :
    splitSegments ['$']
        ("a".toList ++ '$' :: ("b".toList ++ '$' :: "c".toList)) =
      [Segment.Literal "a".toList, Segment.Expression "b".toList,
        Segment.Literal "c".toList] :=
  split_alternation_single_char.2.1 '$' "a".toList "b".toList "c".toList
    (by decide) (by decide) (by decide)

/-- C2 (counterexample): for the multi-character block delimiter the
claimed decomposition fails: with A = "x$", B = "y", C = "z" (none of
which contains "$$") an occurrence of "$$" straddles the boundary
between A and the first delimiter, shifting the split. -/
theorem split_three_multichar_counterexample :
    containsSub "$$".toList "x$".toList = false ∧
    containsSub "$$".toList "y".toList = false ∧
    containsSub "$$".toList "z".toList = false ∧
    splitSegments "$$".toList
        ("x$".toList ++ ("$$".toList ++ ("y".toList ++
          ("$$".toList ++ "z".toList)))) =
      [Segment.Literal "x".toList, Segment.Expression "$y".toList,
        Segment.Literal "z".toList] ∧
    splitSegments "$$".toList
        ("x$".toList ++ ("$$".toList ++ ("y".toList ++
          ("$$".toList ++ "z".toList)))) ≠
      [Segment.Literal "x$".toList, Segment.Expression "y".toList,
        Segment.Literal "z".toList] := by
  refine ⟨rfl, rfl, rfl, rfl, ?_⟩
  decide

/-- C3: when the delimiter occurs an odd number of times, the splitter
still produces a full segmentation (one part more than there are
occurrences) and the final part is classified as an Expression, i.e. it
is handed to the render function rather than emitted as literal text. -/
theorem odd_count_trailing_expression (sep s : List Char)
    (hodd : countOcc sep s % 2 = 1) :
    (splitSegments sep s).length = countOcc sep s + 1 ∧
    ∃ t, (splitSegments sep s).get? (countOcc sep s) =
      some (Segment.Expression t) := by
  have hlen : (splitOnL sep s).length = countOcc sep s + 1 :=
    length_splitGo sep s 0
  constructor
  · rw [splitSegments, tagAlternate_length, hlen]
  · have hlt : countOcc sep s < (splitOnL sep s).length := by omega
    have hx : (splitOnL sep s).get? (countOcc sep s) =
        some ((splitOnL sep s).get ⟨countOcc sep s, hlt⟩) :=
      List.get?_eq_get hlt
    refine ⟨(splitOnL sep s).get ⟨countOcc sep s, hlt⟩, ?_⟩
    have := tagAlternate_get? (splitOnL sep s) 0 (countOcc sep s) _ hx
    simpa [splitSegments, hodd] using this

/-- C3 (witness): the concrete document "a$b" with the inline delimiter
has one occurrence and a trailing Expression. -/
theorem odd_count_trailing_expression_witness :
    (splitSegments "$".toList "a$b".toList).length =
        countOcc "$".toList "a$b".toList + 1 ∧
    ∃ t, (splitSegments "$".toList "a$b".toList).get?
        (countOcc "$".toList "a$b".toList) =
      some (Segment.Expression t) :=
  odd_count_trailing_expression "$".toList "a$b".toList (by decide)

/-- C4: a document with no dollar character round-trips: the output is
the fixed header block followed by the document unchanged; and for every
document the output is the fixed header block followed by the result of
the two passes, so the header is emitted exactly once as a constant
prefix however many expressions the document contains. -/
theorem no_delimiter_roundtrip :
    (∀ (rWO : Opts → List Char → Option (List Char)) (content : List Char)
        (macros : MacroMap), '$' ∉ content →
      render rWO content macros =
        header.toList ++ "\n\n".toList ++ content) ∧
    (∀ (rWO : Opts → List Char → Option (List Char)) (content : List Char)
        (macros : MacroMap),
      render rWO content macros = header.toList ++ "\n\n".toList ++
        render_separator rWO
          (render_separator rWO content "$$".toList true macros)
          "$".toList false macros) := by
  constructor
  · intro rWO content macros hmem
    have h2 : containsSub "$$".toList content = false :=
      containsSub_eq_false_of_head '$' ['$'] content hmem
    have h1 : containsSub "$".toList content = false :=
      containsSub_eq_false_of_head '$' [] content hmem
    show header.toList ++ "\n\n".toList ++
        render_separator rWO
          (render_separator rWO content "$$".toList true macros)
          "$".toList false macros = _
    rw [render_separator_of_not_contains rWO content "$$".toList true
      macros h2]
    rw [render_separator_of_not_contains rWO content "$".toList false
      macros h1]
  · intro rWO content macros
    rfl

/-- C4 (witness): a dollar-free document at a concrete input. -/
theorem no_delimiter_roundtrip_witness :
    render alwaysFail "hello".toList [] =
      header.toList ++ "\n\n".toList ++ "hello".toList :=
  no_delimiter_roundtrip.1 alwaysFail "hello".toList [] (by decide)

/-- C5 (amended): every pass with an always-failing render function
emits the raw parts of its split in order (no abort, delimiters
consumed); a failing expression at an odd counter is emitted raw by the
loop; and the whole pipeline with an always-failing render function
returns the header block plus the document with every dollar character
removed -- the block markers by the block pass and every remaining
single dollar (including those inside block expression bodies) by the
inline pass. -/
theorem always_fail_strips_dollars :
    (∀ (s sep : List Char) (display : Bool) (macros : MacroMap),
      render_separator alwaysFail s sep display macros =
        (splitOnL sep s).flatten) ∧
    (∀ (rWO : Opts → List Char → Option (List Char)) (display : Bool)
        (macros : MacroMap) (k : Nat) (item : List Char)
        (rest : List (List Char)),
      k % 2 = 1 → rWO (Opts.mk display macros) item = none →
      renderItems rWO display macros k (item :: rest) =
        item ++ renderItems rWO display macros (k + 1) rest) ∧
    (∀ (content : List Char) (macros : MacroMap),
      render alwaysFail content macros =
        header.toList ++ "\n\n".toList ++
          content.filter (fun c => !(c == '$'))) := by
  refine ⟨?_, ?_, ?_⟩
  · intro s sep display macros
    exact renderItems_alwaysFail display macros (splitOnL sep s) 0
  · intro rWO display macros k item rest hk hfail
    simp [renderItems, hk, hfail]
  · intro content macros
    show header.toList ++ "\n\n".toList ++
        render_separator alwaysFail
          (render_separator alwaysFail content "$$".toList true macros)
          "$".toList false macros = _
    rw [show render_separator alwaysFail content "$$".toList true macros =
        (splitOnL "$$".toList content).flatten from
      renderItems_alwaysFail true macros _ 0]
    rw [show render_separator alwaysFail
          ((splitOnL "$$".toList content).flatten) "$".toList false macros =
        (splitOnL "$".toList ((splitOnL "$$".toList content).flatten)).flatten
      from renderItems_alwaysFail false macros _ 0]
    rw [show (splitOnL "$".toList
          ((splitOnL "$$".toList content).flatten)).flatten =
        ((splitOnL "$$".toList content).flatten).filter
          (fun c => !(c == '$')) from
      flatten_splitOnL_dollar ((splitOnL "$$".toList content).flatten)]
    rw [show ((splitOnL "$$".toList content).flatten).filter
          (fun c => !(c == '$')) =
        content.filter (fun c => !(c == '$')) from
      filter_flatten_splitOnL_dd content.length content (Nat.le_refl _)]

/-- C5 (witness): a failing expression at loop counter 1 is emitted
raw. -/
theorem always_fail_strips_dollars_witness :
    renderItems alwaysFail false [] 1 ["x".toList] =
      "x".toList ++ renderItems alwaysFail false [] 2 [] :=
  always_fail_strips_dollars.2.1 alwaysFail false [] 1 "x".toList []
    (by decide) rfl

/-- C5 (counterexample): on "$$a$b$$" the block expression body is
"a$b", but the output of the pipeline with an always-failing render
function is the header plus "ab": the body is not preserved verbatim,
its interior dollar is stripped by the inline pass. -/
theorem always_fail_body_not_verbatim :
    splitSegments "$$".toList "$$a$b$$".toList =
      [Segment.Literal [], Segment.Expression "a$b".toList,
        Segment.Literal []] ∧
    render alwaysFail "$$a$b$$".toList [] =
      header.toList ++ "\n\n".toList ++ "ab".toList ∧
    render alwaysFail "$$a$b$$".toList [] ≠
      header.toList ++ "\n\n".toList ++ "a$b".toList := by
  refine ⟨rfl, rfl, ?_⟩
  have e1 : render alwaysFail "$$a$b$$".toList [] =
      header.toList ++ "\n\n".toList ++ "ab".toList := rfl
  rw [e1]
  intro h
  have h2 := List.append_cancel_left h
  exact absurd h2 (by decide)

/-- C6: the concrete macro source from the claim loads to exactly the
two-entry table; any line that is empty or does not start with a
backslash is ignored without error; and when the same key is inserted
twice the later value is the one the table returns. -/
theorem load_macros_table :
    load_macros "\\foo:bar\n\\baz:qux\nignored line\n".toList =
      some [("\\foo".toList, "bar".toList), ("\\baz".toList, "qux".toList)] ∧
    (∀ (m : MacroMap) (line : List Char), line.head? ≠ some '\\' →
      processMacroLine m line = some m) ∧
    (∀ (m : MacroMap) (k v₁ v₂ : List Char),
      lookupMacro (insertMacro (insertMacro m k v₁) k v₂) k = some v₂) := by
  refine ⟨rfl, ?_, ?_⟩
  · intro m line hline
    cases hl : line.head? with
    | none => simp [processMacroLine, hl]
    | some c =>
      have hc : ¬ (c = '\\') := fun h => hline (h ▸ hl)
      simp [processMacroLine, hl, hc]
  · intro m k v₁ v₂
    induction m with
    | nil => simp [insertMacro, lookupMacro]
    | cons p rest ih =>
      obtain ⟨k0, v0⟩ := p
      by_cases hk : k0 = k
      · subst hk
        simp [insertMacro, lookupMacro]
      · simp [insertMacro, lookupMacro, hk, ih]

/-- C6 (witness): a line not starting with a backslash is ignored. -/
theorem load_macros_table_witness :
    processMacroLine [] "ignored line".toList = some [] :=
  load_macros_table.2.1 [] "ignored line".toList (by decide)

/-- C7 (amended): an escape-prefixed line is split on every colon and
only the first two parts are used: the name is the part before the first
colon and the body is the part between the first and the second colon
(the rest of the line after a second colon is dropped). -/
theorem macro_first_two_colon_parts :
    (∀ (m : MacroMap) (line k v : List Char) (rest : List (List Char)),
      line.head? = some '\\' →
      splitOnL ":".toList line = k :: v :: rest →
      processMacroLine m line = some (insertMacro m k v)) ∧
    load_macros "\\a:b:c".toList = some [("\\a".toList, "b".toList)] := by
  constructor
  · intro m line k v rest hhead hsplit
    cases line with
    | nil => simp at hhead
    | cons c cs =>
      have hc : c = '\\' := by simpa using hhead
      subst hc
      have hsplit' : splitOnL [':'] ('\\' :: cs) = k :: v :: rest := hsplit
      simp [processMacroLine, hsplit']
  · rfl

/-- C7 (witness): the rule applied to the concrete line. -/
theorem macro_first_two_colon_parts_witness :
    processMacroLine [] "\\a:b:c".toList =
      some (insertMacro [] "\\a".toList "b".toList) :=
  macro_first_two_colon_parts.1 [] "\\a:b:c".toList "\\a".toList
    "b".toList ["c".toList] rfl rfl

/-- C7 (counterexample): the body stored for the line "\a:b:c" is "b",
not the whole remainder "b:c" after the first colon as the claim
states. -/
theorem macro_body_counterexample :
    load_macros "\\a:b:c".toList = some [("\\a".toList, "b".toList)] ∧
    load_macros "\\a:b:c".toList ≠ some [("\\a".toList, "b:c".toList)] :=
  ⟨rfl, by decide⟩

/-- C8: the loader does not skip an escape-prefixed line that has no
colon: the positional access to the second part of the split fails
(a panic in the source, modelled as `none`), aborting the whole load,
so the following well-formed line is never loaded. -/
theorem macro_missing_colon_aborts :
    processMacroLine [] "\\bad".toList = none ∧
    load_macros "\\bad\n\\good:1".toList = none :=
  ⟨rfl, rfl⟩

/-- C9: the document "$$$$" splits on the block delimiter into one
empty Expression between two empty Literals, and the pass hands that
empty string to the render function (falling back to the empty string on
error) rather than dropping it. -/
theorem empty_expression_rendered :
    splitSegments "$$".toList "$$$$".toList =
      [Segment.Literal [], Segment.Expression [], Segment.Literal []] ∧
    ∀ (rWO : Opts → List Char → Option (List Char)) (display : Bool)
        (macros : MacroMap),
      render_separator rWO "$$$$".toList "$$".toList display macros =
        (rWO (Opts.mk display macros) []).getD [] := by
  refine ⟨rfl, ?_⟩
  intro rWO display macros
  show renderItems rWO display macros 0
      (splitOnL "$$".toList "$$$$".toList) = _
  rw [show splitOnL "$$".toList "$$$$".toList = [[], [], []] from rfl]
  simp [renderItems]
  cases rWO (Opts.mk display macros) [] <;> rfl

/-- C10: the preprocessor run only rewrites chapter contents: erasing
all contents gives the same book before and after (so every non-chapter
item, every non-content chapter field and the order of items are
preserved, recursively through sub-items), the contents after the run
are exactly the processed contents in order, and a separator is returned
unchanged. -/
theorem run_only_modifies_content (f : List Char → List Char)
    (book : List BookItem) :
    eraseItems (run f book) = eraseItems book ∧
    contentsItems (run f book) = (contentsItems book).map f ∧
    processItem f BookItem.separator = BookItem.separator :=
  ⟨eraseItems_processItems f book, contentsItems_processItems f book, rfl⟩

end MdbookKatex
